import Mathlib

set_option maxHeartbeats 1000000
set_option maxRecDepth 4000

/-!
Shallow embedding of `src/main.rs` (the `plot` program): an event-plotting
pipeline that parses `(channel, timestamp, note)` lines, normalizes the
timestamp range, and rasterizes one pixel per event into a 512×128 RGB
framebuffer.

Modelling conventions:
* Rust strings are `List Char`; byte slicing in `from_line` only ever removes
  the ASCII characters `(` and `)`, so the char-list view is exact.
* `u8`/`u64` values are `ℕ`; the parser enforces the 255 / 2^64-1 bounds just
  as `str::parse::<u8>` / `<u64>` do.
* The `f64` arithmetic of the x-coordinate is modelled in exact rational
  arithmetic; it coincides with the program for all inputs whose intermediate
  values are exactly representable in `f64` (every concrete instance used
  below is).  The Rust `as u32` saturating cast (negatives and -∞ to 0,
  overflow and +∞ to `u32::MAX`, NaN to 0) is modelled explicitly.
* A Rust panic (slice index out of bounds, `put_pixel` out of bounds) is an
  `Except.error`; a safe-Rust panic can never be an unchecked memory write.
-/

/-- The `Event` struct of `src/main.rs` (lines 18–23): `channel: u8`,
`timestamp: u64`, `note: u8`, here as `ℕ` with the bounds enforced where the
program enforces them (at parse time). -/
structure Event where
  channel : ℕ
  timestamp : ℕ
  note : ℕ
deriving DecidableEq, Repr

/-- The `BadEvent` error enum (lines 4–15): each malformed-field variant
carries the offending raw text when present, `entire` carries the whole
line. -/
inductive BadEvent where
  | channel (raw : Option (List Char))
  | timestamp (raw : Option (List Char))
  | note (raw : Option (List Char))
  | entire (raw : List Char)
deriving DecidableEq, Repr

/-- The literal separator `", "` used by `splitn(3, ", ")` (line 34). -/
def sepCT : List Char := [',', ' ']

/-- Tests whether `sepCT`-style patterns lead a string; models the leftmost
match test of Rust's string pattern search. -/
def leadsWith : List Char → List Char → Bool
  | [], _ => true
  | _ :: _, [] => false
  | p :: ps, c :: cs => if p = c then leadsWith ps cs else false

/-- Leftmost split on the separator `", "`:
`splitOnce s = some (before, after)` when `", "` occurs in `s`, splitting at
its first occurrence; `none` otherwise.  Models one `next()` step of
`str::splitn`'s underlying search. -/
def splitOnce : List Char → Option (List Char × List Char)
  | [] => none
  | c :: cs =>
    if leadsWith sepCT (c :: cs) then some ([], (c :: cs).drop sepCT.length)
    else
      match splitOnce cs with
      | none => none
      | some (pre, post) => some (c :: pre, post)

/-- Rust's `splitn(3, ", ")` (line 34): at most three parts, the last part is
the unsplit remainder. -/
def splitn3 (s : List Char) : List (List Char) :=
  match splitOnce s with
  | none => [s]
  | some (p1, r1) =>
    match splitOnce r1 with
    | none => [p1, r1]
    | some (p2, r2) => [p1, p2, r2]

/-- Rust's unsigned `from_str` skips one leading `+` sign. -/
def stripPlus : List Char → List Char
  | [] => []
  | c :: cs => if c = '+' then cs else c :: cs

/-- Value of a decimal digit string, accumulated exactly as
`from_str_radix` does (`acc * 10 + digit`). -/
def valOf (s : List Char) : ℕ :=
  s.foldl (fun a c => a * 10 + (c.toNat - 48)) 0

/-- Rust's `str::parse` for an unsigned integer type with maximum `bound`
(`u8`: 255, `u64`: 2^64-1): one optional `+`, then a non-empty run of ASCII
digits, failing on any other character, on emptiness, and on overflow
(`from_str_radix` reports overflow exactly when the value exceeds the type's
maximum). -/
def parseBounded (bound : ℕ) (s : List Char) : Option ℕ :=
  let ds := stripPlus s
  if ds = [] then none
  else if ds.all Char.isDigit then
    if valOf ds ≤ bound then some (valOf ds) else none
  else none

/-- Field decoding of `Event::from_line` (lines 36–50) after the tuple split:
`split.next()` is element `i` of the part list; a missing segment gives the
`None`-payload error, a failed parse the `Some raw` error. -/
def parse3 (parts : List (List Char)) : Except BadEvent Event :=
  match parts[0]? with
  | none => .error (.channel none)
  | some s0 =>
    match parseBounded 255 s0 with
    | none => .error (.channel (some s0))
    | some c =>
      match parts[1]? with
      | none => .error (.timestamp none)
      | some s1 =>
        match parseBounded (2 ^ 64 - 1) s1 with
        | none => .error (.timestamp (some s1))
        | some t =>
          match parts[2]? with
          | none => .error (.note none)
          | some s2 =>
            match parseBounded 255 s2 with
            | none => .error (.note (some s2))
            | some n => .ok ⟨c, t, n⟩

/-- The parser `Event::from_line` (lines 27–57): the line must start with `(`
and end with `)` (checked via `chars().next()` / `chars().last()`), the
interior `line[1..len-1]` is split by `splitn(3, ", ")` and the three fields
are decoded in order; any other shape is the `Entire` error. -/
def fromLine (l : List Char) : Except BadEvent Event :=
  if l.head? = some '(' ∧ l.getLast? = some ')' then
    parse3 (splitn3 ((l.drop 1).dropLast))
  else .error (.entire l)

/-- Constructor of a well-formed input line `(a, b, c)` from three field
strings (the input shape quantified over by the parser claims). -/
def lineOf (a b c : List Char) : List Char :=
  '(' :: ((a ++ ',' :: ' ' :: (b ++ ',' :: ' ' :: c)) ++ [')'])

/-- Whether a line parses successfully. -/
def okLine (l : List Char) : Bool :=
  match fromLine l with
  | .ok _ => true
  | .error _ => false

/-- Ingestion (lines 81–93): each line is parsed; failures are logged to
stderr and skipped, successes are collected in order.  Total: a bad line can
never abort ingestion. -/
def ingest (lines : List (List Char)) : List Event :=
  lines.filterMap fun l =>
    match fromLine l with
    | .ok e => some e
    | .error _ => none

/-- The diagnostics printed by ingestion: one `eprintln!("error: {}", e)` per
failing line, in order (line 88). -/
def diags (lines : List (List Char)) : List BadEvent :=
  lines.filterMap fun l =>
    match fromLine l with
    | .ok _ => none
    | .error err => some err

/-- Fold computing the minimum timestamp over a tail, as
`events.iter().map(|e| e.timestamp).min()` does (lines 98–100). -/
def minAcc (a : ℕ) : List Event → ℕ
  | [] => a
  | e :: es => minAcc (Nat.min a e.timestamp) es

/-- Fold computing the maximum timestamp over a tail (lines 101–103). -/
def maxAcc (a : ℕ) : List Event → ℕ
  | [] => a
  | e :: es => maxAcc (Nat.max a e.timestamp) es

/-- `Iterator::min` over the timestamps: `none` exactly on the empty event
list. -/
def minT? : List Event → Option ℕ
  | [] => none
  | e :: es => some (minAcc e.timestamp es)

/-- `Iterator::max` over the timestamps. -/
def maxT? : List Event → Option ℕ
  | [] => none
  | e :: es => some (maxAcc e.timestamp es)

/-- Rust's saturating `f64 as u32` cast on a finite value: truncation toward
zero, negatives clamped to 0, overflow clamped to `u32::MAX`.  (`Int.toNat`
of the floor agrees with truncation toward zero after the clamp at 0: both
send every value below 1 that is negative to 0.) -/
def castU32 (q : ℚ) : ℕ :=
  min (Int.toNat (Int.floor q)) (2 ^ 32 - 1)

/-- The x-coordinate computation of lines 116–118,
`(((t as f64 - min) / (max - min)) * (width - 1) as f64) as u32`, with
`image.width()` generalized to the parameter `w` (the source fixes `w = 512`).
The `mx = mn` branch is not a special case added to the code: it is the
`f64` semantics of the very same expression, where the denominator is `0.0`,
so the quotient is NaN (if the numerator is also `0.0`, which in the pipeline
it always is, since `mn = mx` forces every timestamp to equal `mn`) or `±∞`,
and `NaN as u32 = 0`, `-∞ as u32 = 0`, `+∞ as u32 = u32::MAX`.  The finite
branch is exact rational arithmetic. -/
def xCoordW (w mn mx t : ℕ) : ℕ :=
  if mx = mn then
    if t = mn then 0
    else if t < mn then 0
    else 2 ^ 32 - 1
  else
    castU32 ((((t : ℚ) - (mn : ℚ)) / ((mx : ℚ) - (mn : ℚ))) * ((w : ℚ) - 1))

/-- Follows the spec's words for comparison with `xCoordW`:
`x = round( (timestamp - min) / (max - min) * (image_width - 1) )`, the scaled
ratio rounded to the nearest integer. -/
def xRoundSpec (w mn mx t : ℕ) : ℕ :=
  Int.toNat (round ((((t : ℚ) - (mn : ℚ)) / ((mx : ℚ) - (mn : ℚ))) * ((w : ℚ) - 1)))

/-- The 16-entry palette `pal` (lines 61–78), each entry a `u32` written
`0xRRGGBBAA` in the source (every entry's low byte, the alpha, is `0xff`). -/
def palette : List ℕ :=
  [0xaaaaaaff, 0x005500ff, 0x00aa00ff, 0x00ff00ff,
   0x0000ffff, 0x0055ffff, 0x00aaffff, 0x00ffffff,
   0xff0000ff, 0xff5500ff, 0xffaa00ff, 0xffff00ff,
   0xff00ffff, 0xff55ffff, 0xffaaffff, 0xffffffff]

/-- An RGB pixel of the `Rgb8` framebuffer. -/
def Pixel : Type := ℕ × ℕ × ℕ
deriving DecidableEq, Repr

/-- The framebuffer, as the journal of `put_pixel` writes: later writes are
prepended, lookup takes the newest entry (last-writer-wins), and every
unwritten coordinate reads the zero-initialized black of
`DynamicImage::new_rgb8(512, 128)` (line 95). -/
def FB : Type := List ((ℕ × ℕ) × Pixel)
deriving DecidableEq, Repr

/-- The empty (all-black) framebuffer created at line 95. -/
def initFB : FB := []

/-- One `put_pixel` write. -/
def putPx (fb : FB) (x y : ℕ) (c : Pixel) : FB := ((x, y), c) :: fb

/-- Reads a pixel back: newest write at the coordinate, else the initial
black `(0, 0, 0)`. -/
def getPx : FB → ℕ → ℕ → Pixel
  | [], _, _ => (0, 0, 0)
  | ((x, y), c) :: rest, p, q => if x = p ∧ y = q then c else getPx rest p q

/-- The pixel value actually stored for a palette word `p` (lines 122–125):
`p.to_le_bytes().into()` builds an `Rgba` from the little-endian bytes
`[p & 0xff, (p >> 8) & 0xff, (p >> 16) & 0xff, (p >> 24) & 0xff]`, and
`DynamicImage::put_pixel` on an `Rgb8` image converts with `.to_rgb()`,
dropping the fourth channel; bytes 0..2 remain. -/
def rgbOfLE (p : ℕ) : Pixel :=
  (p % 256, p / 2 ^ 8 % 256, p / 2 ^ 16 % 256)

/-- Follows the spec's words for comparison with `rgbOfLE`: a palette entry
read as a 32-bit RGBA value with each byte one color channel, written
`0xRRGGBBAA`, so red is the high byte and the alpha the (always `0xff`) low
byte. -/
def specPixelColor (p : ℕ) : ℕ × ℕ × ℕ × ℕ :=
  (p / 2 ^ 24 % 256, p / 2 ^ 16 % 256, p / 2 ^ 8 % 256, p % 256)

/-- The two panics the rasterizer loop can hit: the slice bounds check of
`pal[event.channel as usize]` (line 122) and the bounds assertion of
`put_pixel` (line 125). -/
inductive RastError where
  | channelOutOfRange
  | coordOutOfRange
deriving DecidableEq, Repr

/-- One iteration of the rasterizer loop (lines 114–126): compute
`x = xCoordW 512 mn mx t`, `y = note`, index the palette (panicking when
`channel ≥ 16`), and `put_pixel` (panicking when `(x, y)` is outside the
512×128 buffer). -/
def rastStep (mn mx : ℕ) (fb : FB) (e : Event) : Except RastError FB :=
  let x := xCoordW 512 mn mx e.timestamp
  let y := e.note
  match palette[e.channel]? with
  | none => .error .channelOutOfRange
  | some col =>
    if x < 512 ∧ y < 128 then .ok (putPx fb x y (rgbOfLE col))
    else .error .coordOutOfRange

/-- The whole rasterizer loop: events are drawn in order; a panic aborts the
program. -/
def rasterize (mn mx : ℕ) (fb : FB) : List Event → Except RastError FB
  | [] => .ok fb
  | e :: es =>
    match rastStep mn mx fb e with
    | .ok fb2 => rasterize mn mx fb2 es
    | .error err => .error err

/-- Observable outcome of `main` (lines 60–133): `noData` is the
`eprintln!("no data provided; aborting"); return Ok(())` path — a successful
exit with no file written; `panicked` is an aborted run; `saved` records the
dimensions and contents of the image passed to `image.save("output.png")`. -/
inductive Outcome where
  | noData
  | panicked (err : RastError)
  | saved (w h : ℕ) (fb : FB)
deriving DecidableEq, Repr

/-- The `main` pipeline.  Note on lines 128–130: `image.resize(512, 2048,
Nearest)` returns a *new* `DynamicImage` and the source discards that return
value, so `image.save` persists the original, unresized 512×128 framebuffer —
hence `saved 512 128`.  (`time_min`/`time_max` are `some` on exactly the same
lists, so the mixed `(some, none)` patterns folded into the `noData` arm are
unreachable, as in the source's `_` arm.) -/
def runMain (lines : List (List Char)) : Outcome :=
  let events := ingest lines
  match minT? events, maxT? events with
  | some mn, some mx =>
    match rasterize mn mx initFB events with
    | .ok fb => .saved 512 128 fb
    | .error err => .panicked err
  | _, _ => .noData

/-- Dimensions of the image handed to `image.save`, when one is saved. -/
def savedSize : Outcome → Option (ℕ × ℕ)
  | .saved w h _ => some (w, h)
  | _ => none

deriving instance DecidableEq for Except

theorem noComma_of_digits (s : List Char) (h : s.all Char.isDigit = true) : ',' ∉ s := by
  intro hm
  exact absurd (List.all_eq_true.mp h _ hm) (by decide)

theorem splitOnce_prepend (a r : List Char) (ha : ',' ∉ a) :
    splitOnce (a ++ ',' :: ' ' :: r) = some (a, r) := by
  induction a with
  | nil => rfl
  | cons c cs ih =>
    have hc : ¬(',' = c) := fun h => ha (h ▸ List.mem_cons_self c cs)
    have hlw : leadsWith sepCT (c :: (cs ++ ',' :: ' ' :: r)) = false := by
      simp [leadsWith, sepCT, hc]
    rw [List.cons_append]
    simp only [splitOnce, hlw, Bool.false_eq_true, if_false]
    rw [ih (fun hm => ha (List.mem_cons_of_mem c hm))]

theorem splitn3_three (a b c : List Char) (ha : ',' ∉ a) (hb : ',' ∉ b) :
    splitn3 (a ++ ',' :: ' ' :: (b ++ ',' :: ' ' :: c)) = [a, b, c] := by
  unfold splitn3
  simp only [splitOnce_prepend a _ ha, splitOnce_prepend b _ hb]

theorem stripPlus_digits (s : List Char) (h : s.all Char.isDigit = true) : stripPlus s = s := by
  cases s with
  | nil => rfl
  | cons c cs =>
    have hc : c.isDigit = true := List.all_eq_true.mp h _ (List.mem_cons_self c cs)
    have hne : ¬(c = '+') := by
      intro hh
      rw [hh] at hc
      exact absurd hc (by decide)
    simp [stripPlus, hne]

theorem parseBounded_digits (bound : ℕ) (s : List Char) (h1 : s ≠ [])
    (h2 : s.all Char.isDigit = true) (h3 : valOf s ≤ bound) :
    parseBounded bound s = some (valOf s) := by
  unfold parseBounded
  rw [stripPlus_digits s h2, if_neg h1, if_pos h2, if_pos h3]

theorem parse3_ok (a b c : List Char) (va vb vc : ℕ)
    (hpa : parseBounded 255 a = some va)
    (hpb : parseBounded (2 ^ 64 - 1) b = some vb)
    (hpc : parseBounded 255 c = some vc) :
    parse3 [a, b, c] = .ok ⟨va, vb, vc⟩ := by
  simp only [parse3, List.getElem?_cons_zero, List.getElem?_cons_succ, hpa, hpb, hpc]

/-- C6: every well-formed line `(c, t, n)` whose three fields are decimal
digit strings with values in `u8`/`u64`/`u8` range parses successfully to
exactly the event with those field values. -/
theorem c6_parse_wellformed (a b c : List Char)
    (ha1 : a ≠ []) (ha2 : a.all Char.isDigit = true) (ha3 : valOf a ≤ 255)
    (hb1 : b ≠ []) (hb2 : b.all Char.isDigit = true) (hb3 : valOf b ≤ 2 ^ 64 - 1)
    (hc1 : c ≠ []) (hc2 : c.all Char.isDigit = true) (hc3 : valOf c ≤ 255) :
    fromLine (lineOf a b c) = .ok ⟨valOf a, valOf b, valOf c⟩ := by
  have hshape : lineOf a b c
      = ('(' :: (a ++ ',' :: ' ' :: (b ++ ',' :: ' ' :: c))) ++ [')'] := rfl
  have hhead : (lineOf a b c).head? = some '(' := rfl
  have hlast : (lineOf a b c).getLast? = some ')' := by
    rw [hshape]; exact List.getLast?_concat _
  unfold fromLine
  rw [if_pos ⟨hhead, hlast⟩]
  have hdrop : (lineOf a b c).drop 1
      = (a ++ ',' :: ' ' :: (b ++ ',' :: ' ' :: c)) ++ [')'] := rfl
  rw [hdrop, List.dropLast_concat,
    splitn3_three a b c (noComma_of_digits a ha2) (noComma_of_digits b hb2)]
  exact parse3_ok a b c _ _ _
    (parseBounded_digits 255 a ha1 ha2 ha3)
    (parseBounded_digits (2 ^ 64 - 1) b hb1 hb2 hb3)
    (parseBounded_digits 255 c hc1 hc2 hc3)

theorem c6_parse_wellformed_witness :
    fromLine (lineOf ("1").toList ("23").toList ("45").toList) = .ok ⟨1, 23, 45⟩ := by
  have h := c6_parse_wellformed ("1").toList ("23").toList ("45").toList
    (by decide) (by decide) (by decide) (by decide) (by decide) (by decide)
    (by decide) (by decide) (by decide)
  rw [h]
  rfl

/-- C7: ingestion yields exactly the events of the valid lines, in their
original relative order (the `Forall₂` pairs the i-th valid line with the
i-th produced event), never aborts on a bad line (`ingest` is total on every
line sequence), and each bad line contributes exactly one stderr
diagnostic. -/
theorem c7_ingest_order (lines : List (List Char)) :
    List.Forall₂ (fun l e => fromLine l = .ok e) (lines.filter okLine) (ingest lines) ∧
    (ingest lines).length = lines.countP okLine ∧
    (diags lines).length = lines.countP (fun l => !okLine l) := by
  induction lines with
  | nil => exact ⟨List.Forall₂.nil, rfl, rfl⟩
  | cons l ls ih =>
    obtain ⟨ih1, ih2, ih3⟩ := ih
    cases h : fromLine l with
    | ok e =>
      have hok : okLine l = true := by simp [okLine, h]
      have step : List.Forall₂ (fun l e => fromLine l = .ok e)
          (l :: ls.filter okLine) (e :: ingest ls) := List.Forall₂.cons h ih1
      refine ⟨?_, ?_, ?_⟩
      · simpa [ingest, List.filterMap_cons, h, List.filter_cons, hok] using step
      · simp [ingest, List.filterMap_cons, h, List.countP_cons, hok] at ih2 ⊢
        omega
      · simp [diags, List.filterMap_cons, h, List.countP_cons, hok] at ih3 ⊢
        omega
    | error err =>
      have hok : okLine l = false := by simp [okLine, h]
      refine ⟨?_, ?_, ?_⟩
      · simpa [ingest, List.filterMap_cons, h, List.filter_cons, hok] using ih1
      · simp [ingest, List.filterMap_cons, h, List.countP_cons, hok] at ih2 ⊢
        omega
      · simp [diags, List.filterMap_cons, h, List.countP_cons, hok] at ih3 ⊢
        omega

theorem minAcc_le_acc (es : List Event) : ∀ a : ℕ, minAcc a es ≤ a := by
  induction es with
  | nil => intro a; exact le_refl a
  | cons e es ih =>
    intro a
    exact le_trans (ih (Nat.min a e.timestamp)) (Nat.min_le_left _ _)

theorem minAcc_le_mem (es : List Event) :
    ∀ (a : ℕ) (x : Event), x ∈ es → minAcc a es ≤ x.timestamp := by
  induction es with
  | nil => intro a x hx; exact absurd hx (List.not_mem_nil x)
  | cons e es ih =>
    intro a x hx
    rcases List.mem_cons.mp hx with h | h
    · subst h
      exact le_trans (minAcc_le_acc es _) (Nat.min_le_right _ _)
    · exact ih _ x h

theorem le_maxAcc_acc (es : List Event) : ∀ a : ℕ, a ≤ maxAcc a es := by
  induction es with
  | nil => intro a; exact le_refl a
  | cons e es ih =>
    intro a
    exact le_trans (Nat.le_max_left _ e.timestamp) (ih (Nat.max a e.timestamp))

theorem le_maxAcc_mem (es : List Event) :
    ∀ (a : ℕ) (x : Event), x ∈ es → x.timestamp ≤ maxAcc a es := by
  induction es with
  | nil => intro a x hx; exact absurd hx (List.not_mem_nil x)
  | cons e es ih =>
    intro a x hx
    rcases List.mem_cons.mp hx with h | h
    · subst h
      exact le_trans (Nat.le_max_right _ _) (le_maxAcc_acc es _)
    · exact ih _ x h

theorem minT_le_timestamp (events : List Event) (mn : ℕ) (e : Event)
    (hm : minT? events = some mn) (he : e ∈ events) : mn ≤ e.timestamp := by
  cases events with
  | nil => exact absurd he (List.not_mem_nil e)
  | cons e0 es =>
    have hmn : mn = minAcc e0.timestamp es := by
      simpa [minT?] using hm.symm
    subst hmn
    rcases List.mem_cons.mp he with h | h
    · subst h; exact minAcc_le_acc es _
    · exact minAcc_le_mem es _ e h

theorem timestamp_le_maxT (events : List Event) (mx : ℕ) (e : Event)
    (hm : maxT? events = some mx) (he : e ∈ events) : e.timestamp ≤ mx := by
  cases events with
  | nil => exact absurd he (List.not_mem_nil e)
  | cons e0 es =>
    have hmx : mx = maxAcc e0.timestamp es := by
      simpa [maxT?] using hm.symm
    subst hmx
    rcases List.mem_cons.mp he with h | h
    · subst h; exact le_maxAcc_acc es _
    · exact le_maxAcc_mem es _ e h

theorem minAcc_const (t0 : ℕ) (es : List Event)
    (h : ∀ e ∈ es, e.timestamp = t0) : minAcc t0 es = t0 := by
  induction es with
  | nil => rfl
  | cons e es ih =>
    have he : e.timestamp = t0 := h e (List.mem_cons_self e es)
    have : Nat.min t0 e.timestamp = t0 := by rw [he]; exact Nat.min_self t0
    simpa [minAcc, this] using ih (fun x hx => h x (List.mem_cons_of_mem e hx))

theorem maxAcc_const (t0 : ℕ) (es : List Event)
    (h : ∀ e ∈ es, e.timestamp = t0) : maxAcc t0 es = t0 := by
  induction es with
  | nil => rfl
  | cons e es ih =>
    have he : e.timestamp = t0 := h e (List.mem_cons_self e es)
    have : Nat.max t0 e.timestamp = t0 := by rw [he]; exact Nat.max_self t0
    simpa [maxAcc, this] using ih (fun x hx => h x (List.mem_cons_of_mem e hx))

theorem scaled_ratio_bounds (w mn mx t : ℕ) (h1 : mn ≤ t) (h2 : t ≤ mx)
    (h3 : mn < mx) (hw : 1 ≤ w) :
    0 ≤ (((t : ℚ) - (mn : ℚ)) / ((mx : ℚ) - (mn : ℚ))) * ((w : ℚ) - 1) ∧
    (((t : ℚ) - (mn : ℚ)) / ((mx : ℚ) - (mn : ℚ))) * ((w : ℚ) - 1) ≤ (w : ℚ) - 1 := by
  have hden : (0 : ℚ) < (mx : ℚ) - (mn : ℚ) := by
    have : (mn : ℚ) < (mx : ℚ) := by exact_mod_cast h3
    linarith
  have hnum0 : (0 : ℚ) ≤ (t : ℚ) - (mn : ℚ) := by
    have : (mn : ℚ) ≤ (t : ℚ) := by exact_mod_cast h1
    linarith
  have hnum1 : (t : ℚ) - (mn : ℚ) ≤ (mx : ℚ) - (mn : ℚ) := by
    have : (t : ℚ) ≤ (mx : ℚ) := by exact_mod_cast h2
    linarith
  have hr0 : 0 ≤ ((t : ℚ) - (mn : ℚ)) / ((mx : ℚ) - (mn : ℚ)) :=
    div_nonneg hnum0 (le_of_lt hden)
  have hr1 : ((t : ℚ) - (mn : ℚ)) / ((mx : ℚ) - (mn : ℚ)) ≤ 1 :=
    (div_le_one hden).mpr hnum1
  have hw0 : (0 : ℚ) ≤ (w : ℚ) - 1 := by
    have : (1 : ℚ) ≤ (w : ℚ) := by exact_mod_cast hw
    linarith
  constructor
  · exact mul_nonneg hr0 hw0
  · calc (((t : ℚ) - (mn : ℚ)) / ((mx : ℚ) - (mn : ℚ))) * ((w : ℚ) - 1)
        ≤ 1 * ((w : ℚ) - 1) := mul_le_mul_of_nonneg_right hr1 hw0
    _ = (w : ℚ) - 1 := one_mul _

/-- C2 counterexample: the claim says x is the scaled ratio *rounded to the
nearest integer*, but the `as u32` cast truncates.  With ingested timestamps
0, 1, 2 (min 0, max 2, exactly representable in `f64`, so the rational model
is exact here), the event at timestamp 1 is placed by the program at
x = ⌊255.5⌋ = 255, while the spec formula rounds 255.5 to 256. -/
theorem c2_round_counterexample :
    minT? (ingest [("(0, 0, 0)").toList, ("(0, 1, 0)").toList, ("(0, 2, 0)").toList])
      = some 0 ∧
    maxT? (ingest [("(0, 0, 0)").toList, ("(0, 1, 0)").toList, ("(0, 2, 0)").toList])
      = some 2 ∧
    xCoordW 512 0 2 1 = 255 ∧ xRoundSpec 512 0 2 1 = 256 ∧
    xCoordW 512 0 2 1 ≠ xRoundSpec 512 0 2 1 := by
  have hx : xCoordW 512 0 2 1 = 255 := by
    norm_num [xCoordW, castU32]
    decide
  have hr : xRoundSpec 512 0 2 1 = 256 := by
    norm_num [xRoundSpec, round_eq]
    decide
  refine ⟨by decide, by decide, hx, hr, ?_⟩
  rw [hx, hr]
  decide

/-- C2 (amended): when max > min, the x coordinate is the scaled ratio
`(timestamp - min) / (max - min) * (image_width - 1)` truncated toward zero
(equivalently its floor, the ratio being nonnegative), not rounded to
nearest; the spec's concrete examples are unaffected, since with timestamps
0/50/100 and width 101 the scaled ratios are exact integers: 50 ↦ 50,
0 ↦ 0, 100 ↦ 100. -/
theorem c2_x_truncates (w mn mx t : ℕ) (hw1 : 1 ≤ w) (hw2 : w ≤ 2 ^ 32)
    (h1 : mn ≤ t) (h2 : t ≤ mx) (h3 : mn < mx) :
    ((xCoordW w mn mx t : ℕ) : ℤ)
        = Int.floor ((((t : ℚ) - (mn : ℚ)) / ((mx : ℚ) - (mn : ℚ))) * ((w : ℚ) - 1)) ∧
    xCoordW 101 0 100 50 = 50 ∧ xCoordW 101 0 100 0 = 0 ∧
    xCoordW 101 0 100 100 = 100 := by
  refine ⟨?_, by norm_num [xCoordW, castU32]; decide, by norm_num [xCoordW, castU32],
    by norm_num [xCoordW, castU32]; decide⟩
  have hne : ¬(mx = mn) := by omega
  obtain ⟨hq0, hq1⟩ := scaled_ratio_bounds w mn mx t h1 h2 h3 hw1
  have hfl0 : 0 ≤ Int.floor ((((t : ℚ) - (mn : ℚ)) / ((mx : ℚ) - (mn : ℚ))) * ((w : ℚ) - 1)) :=
    Int.floor_nonneg.mpr hq0
  have hone : Int.floor ((w : ℚ) - 1) = (w : ℤ) - 1 := by
    rw [show ((w : ℚ) - 1) = (((w : ℤ) - 1 : ℤ) : ℚ) from by push_cast; ring,
      Int.floor_intCast]
  have hflw : Int.floor ((((t : ℚ) - (mn : ℚ)) / ((mx : ℚ) - (mn : ℚ))) * ((w : ℚ) - 1))
      ≤ (w : ℤ) - 1 := by
    have hmono := Int.floor_le_floor (α := ℚ) hq1
    rw [hone] at hmono
    exact hmono
  have hw2z : (w : ℤ) ≤ 2 ^ 32 := by exact_mod_cast hw2
  have hbound : Int.toNat (Int.floor ((((t : ℚ) - (mn : ℚ)) / ((mx : ℚ) - (mn : ℚ)))
      * ((w : ℚ) - 1))) ≤ 2 ^ 32 - 1 := by omega
  rw [xCoordW, if_neg hne, castU32, min_eq_left hbound]
  exact_mod_cast Int.toNat_of_nonneg hfl0

theorem c2_x_truncates_witness :
    ((xCoordW 512 0 2 1 : ℕ) : ℤ)
        = Int.floor (((((1 : ℕ) : ℚ) - ((0 : ℕ) : ℚ)) / (((2 : ℕ) : ℚ) - ((0 : ℕ) : ℚ)))
            * (((512 : ℕ) : ℚ) - 1)) :=
  (c2_x_truncates 512 0 2 1 (by decide) (by norm_num) (by decide) (by decide) (by decide)).1

/-- C4: when every ingested event carries one same timestamp `t0`, the
normalized range degenerates to `min = max = t0` and the rasterizer places
every event at x = 0 — no division-by-zero failure occurs (`f64` division by
zero cannot fail; the program's `0.0 / 0.0` is NaN, and `NaN as u32` is 0). -/
theorem c4_degenerate_range (events : List Event) (t0 : ℕ)
    (hne : events ≠ []) (hall : ∀ e ∈ events, e.timestamp = t0) :
    minT? events = some t0 ∧ maxT? events = some t0 ∧
    ∀ e ∈ events, xCoordW 512 t0 t0 e.timestamp = 0 := by
  refine ⟨?_, ?_, ?_⟩
  · cases events with
    | nil => exact absurd rfl hne
    | cons e es =>
      have he : e.timestamp = t0 := hall e (List.mem_cons_self e es)
      have : minAcc e.timestamp es = t0 := by
        rw [he]
        exact minAcc_const t0 es (fun x hx => hall x (List.mem_cons_of_mem e hx))
      simp [minT?, this]
  · cases events with
    | nil => exact absurd rfl hne
    | cons e es =>
      have he : e.timestamp = t0 := hall e (List.mem_cons_self e es)
      have : maxAcc e.timestamp es = t0 := by
        rw [he]
        exact maxAcc_const t0 es (fun x hx => hall x (List.mem_cons_of_mem e hx))
      simp [maxT?, this]
  · intro e he
    rw [hall e he]
    simp [xCoordW]

theorem c4_degenerate_range_witness :
    minT? [⟨0, 10, 0⟩, ⟨1, 10, 1⟩, ⟨2, 10, 2⟩] = some 10 ∧
    maxT? [⟨0, 10, 0⟩, ⟨1, 10, 1⟩, ⟨2, 10, 2⟩] = some 10 ∧
    xCoordW 512 10 10 10 = 0 :=
  ⟨(c4_degenerate_range [⟨0, 10, 0⟩, ⟨1, 10, 1⟩, ⟨2, 10, 2⟩] 10 (by decide) (by decide)).1,
   (c4_degenerate_range [⟨0, 10, 0⟩, ⟨1, 10, 1⟩, ⟨2, 10, 2⟩] 10 (by decide) (by decide)).2.1,
   (c4_degenerate_range [⟨0, 10, 0⟩, ⟨1, 10, 1⟩, ⟨2, 10, 2⟩] 10 (by decide) (by decide)).2.2
     ⟨0, 10, 0⟩ (by decide)⟩

/-- C9: when max > min, every ingested event's x coordinate is at most 511,
the last column of the 512-pixel-wide framebuffer: its timestamp lies between
min and max, so the scaled ratio never exceeds 1. -/
theorem c9_x_within_width (events : List Event) (mn mx : ℕ) (e : Event)
    (hmn : minT? events = some mn) (hmx : maxT? events = some mx)
    (hlt : mn < mx) (he : e ∈ events) :
    xCoordW 512 mn mx e.timestamp ≤ 511 := by
  have h1 : mn ≤ e.timestamp := minT_le_timestamp events mn e hmn he
  have h2 : e.timestamp ≤ mx := timestamp_le_maxT events mx e hmx he
  have hne : ¬(mx = mn) := by omega
  obtain ⟨hq0, hq1⟩ := scaled_ratio_bounds 512 mn mx e.timestamp h1 h2 hlt (by norm_num)
  have hone : Int.floor ((((512 : ℕ) : ℚ)) - 1) = (((512 : ℕ) : ℤ)) - 1 := by
    rw [show (((512 : ℕ) : ℚ) - 1) = ((((512 : ℕ) : ℤ) - 1 : ℤ) : ℚ) from by push_cast; ring,
      Int.floor_intCast]
  have hflw : Int.floor ((((e.timestamp : ℚ) - (mn : ℚ)) / ((mx : ℚ) - (mn : ℚ)))
      * (((512 : ℕ) : ℚ) - 1)) ≤ ((512 : ℕ) : ℤ) - 1 := by
    have hmono := Int.floor_le_floor (α := ℚ) hq1
    rw [hone] at hmono
    exact hmono
  have htn : Int.toNat (Int.floor ((((e.timestamp : ℚ) - (mn : ℚ)) / ((mx : ℚ) - (mn : ℚ)))
      * (((512 : ℕ) : ℚ) - 1))) ≤ 511 := by omega
  rw [xCoordW, if_neg hne, castU32]
  exact le_trans (min_le_left _ _) htn

theorem c9_x_within_width_witness :
    xCoordW 512 0 2 2 ≤ 511 :=
  c9_x_within_width [⟨0, 0, 0⟩, ⟨0, 2, 1⟩] 0 2 ⟨0, 2, 1⟩
    (by decide) (by decide) (by decide) (by decide)

/-- C1: the pixel actually written is *not* `palette[channel]` read as
`0xRRGGBBAA` RGBA — `to_le_bytes` feeds the bytes to `Rgba` in little-endian
order, so the alpha byte `0xff` lands in the red channel, blue and green are
swapped into the wrong slots and the intended red byte is discarded with the
alpha when the RGB8 buffer drops the fourth channel.  Concretely, a
channel-1 event writes `(0xff, 0x00, 0x55)` where the spec's reading of
palette entry `0x005500ff` is the opaque green `(0x00, 0x55, 0x00, 0xff)`. -/
theorem c1_color_scrambled :
    palette[1]? = some 0x005500ff ∧
    rastStep 0 0 initFB ⟨1, 0, 0⟩ = .ok [((0, 0), rgbOfLE 0x005500ff)] ∧
    rgbOfLE 0x005500ff = (0xff, 0x00, 0x55) ∧
    specPixelColor 0x005500ff = (0x00, 0x55, 0x00, 0xff) ∧
    ((0xff, 0x00, 0x55) : Pixel) ≠ ((0x00, 0x55, 0x00) : Pixel) :=
  ⟨by decide, by decide, by decide, by decide, by decide⟩

/-- C3: what reaches `image.save` is the unresized 512×128 framebuffer, not
an image at the 512×2048 resize target: line 129's `image.resize(512, 2048,
Nearest)` returns a fresh image whose value the source discards (and whose
aspect-preserving policy would keep 512×128 anyway), contradicting the
intent of resizing before persisting. -/
theorem c3_saved_unresized :
    savedSize (runMain [("(0, 0, 0)").toList]) = some (512, 128) ∧
    ((512, 128) : ℕ × ℕ) ≠ ((512, 2048) : ℕ × ℕ) :=
  ⟨by decide, by decide⟩

/-- C5: with zero valid events ingested, `main` takes the
`eprintln!("no data provided; aborting"); return Ok(())` path: a "no data"
diagnostic, a successful exit, and no image file written. -/
theorem c5_no_data_success (lines : List (List Char)) (h : ingest lines = []) :
    runMain lines = .noData := by
  unfold runMain
  rw [h]
  rfl

theorem c5_no_data_success_witness :
    ingest [("x").toList] = [] ∧ runMain [("x").toList] = .noData :=
  ⟨by decide, c5_no_data_success [("x").toList] (by decide)⟩

/-- C8: an event with `channel ≥ 16` or `note ≥ 128` always hits an explicit
bounds check — the slice index panic at `pal[channel]` or the `put_pixel`
bounds assertion — so rasterizing it is a fatal error and never performs an
unchecked or arbitrary pixel write. -/
theorem c8_oob_is_fatal (mn mx : ℕ) (fb : FB) (e : Event)
    (h : 16 ≤ e.channel ∨ 128 ≤ e.note) :
    ∃ err, rastStep mn mx fb e = .error err := by
  rcases h with h | h
  · have hlen : palette.length = 16 := rfl
    have hnone : palette[e.channel]? = none :=
      List.getElem?_eq_none (by rw [hlen]; exact h)
    exact ⟨.channelOutOfRange, by simp [rastStep, hnone]⟩
  · cases hpal : palette[e.channel]? with
    | none => exact ⟨.channelOutOfRange, by simp [rastStep, hpal]⟩
    | some col =>
      have hno : ¬(xCoordW 512 mn mx e.timestamp < 512 ∧ e.note < 128) := by
        intro hc
        omega
      exact ⟨.coordOutOfRange, by simp [rastStep, hpal, hno]⟩

theorem c8_oob_is_fatal_witness :
    (∃ err, rastStep 0 0 initFB ⟨16, 0, 0⟩ = .error err) ∧
    (∃ err, rastStep 0 0 initFB ⟨0, 0, 128⟩ = .error err) :=
  ⟨c8_oob_is_fatal 0 0 initFB ⟨16, 0, 0⟩ (Or.inl (by decide)),
   c8_oob_is_fatal 0 0 initFB ⟨0, 0, 128⟩ (Or.inr (by decide))⟩

theorem getPx_putPx_ne (fb : FB) (x y : ℕ) (c : Pixel) (p q : ℕ)
    (h : ¬(x = p ∧ y = q)) : getPx (putPx fb x y c) p q = getPx fb p q := by
  simp only [putPx, getPx]
  rw [if_neg h]

theorem rasterize_keeps (mn mx : ℕ) (events : List Event) :
    ∀ (fb0 fb : FB) (p q : ℕ),
      rasterize mn mx fb0 events = .ok fb →
      (∀ e ∈ events, ¬(p = xCoordW 512 mn mx e.timestamp ∧ q = e.note)) →
      getPx fb p q = getPx fb0 p q := by
  induction events with
  | nil =>
    intro fb0 fb p q h _
    have : fb0 = fb := by simpa [rasterize] using h
    rw [this]
  | cons e es ih =>
    intro fb0 fb p q h hun
    unfold rasterize at h
    cases hstep : rastStep mn mx fb0 e with
    | error err =>
      rw [hstep] at h
      exact absurd h (by simp)
    | ok fb1 =>
      rw [hstep] at h
      have hrest : getPx fb p q = getPx fb1 p q :=
        ih fb1 fb p q h (fun x hx => hun x (List.mem_cons_of_mem e hx))
      have hne : ¬(p = xCoordW 512 mn mx e.timestamp ∧ q = e.note) :=
        hun e (List.mem_cons_self e es)
      cases hpal : palette[e.channel]? with
      | none =>
        simp only [rastStep, hpal] at hstep
        exact absurd hstep (by simp)
      | some col =>
        simp only [rastStep, hpal] at hstep
        by_cases hin : xCoordW 512 mn mx e.timestamp < 512 ∧ e.note < 128
        · rw [if_pos hin] at hstep
          injection hstep with hfb1
          rw [hrest, ← hfb1]
          exact getPx_putPx_ne fb0 _ _ _ p q
            (fun hpq => hne ⟨hpq.1.symm, hpq.2.symm⟩)
        · rw [if_neg hin] at hstep
          exact absurd hstep (by simp)

/-- C10: after a successful rasterization pass, every framebuffer coordinate
that no ingested event addresses (no event has this x under the range
mapping together with this note as y) still reads the initial
zero-filled black of `DynamicImage::new_rgb8` — the loop writes only the
addressed pixels. -/
theorem c10_unaddressed_black (mn mx : ℕ) (events : List Event) (fb : FB) (p q : ℕ)
    (h : rasterize mn mx initFB events = .ok fb)
    (hun : ∀ e ∈ events, ¬(p = xCoordW 512 mn mx e.timestamp ∧ q = e.note)) :
    getPx fb p q = (0, 0, 0) := by
  rw [rasterize_keeps mn mx events initFB fb p q h hun]
  rfl

theorem c10_unaddressed_black_witness :
    getPx [((0, 7), rgbOfLE 0xaaaaaaff)] 3 4 = (0, 0, 0) :=
  c10_unaddressed_black 5 5 [⟨0, 5, 7⟩] [((0, 7), rgbOfLE 0xaaaaaaff)] 3 4
    (by decide) (by decide)
